import Mathlib

/-!
Verification of the PDF chapter-splitting tool (`main.py`).

Strings are modelled as lists of characters (`Str`).  Python's `re`-based
text transformations are embedded as executable Lean functions; the page
arithmetic of `split_pdf` is embedded over `Int`, and Python exceptions are
modelled with `Except` carrying a structured `SplitError`.
-/

set_option autoImplicit false

namespace SplitPdf

/-- Strings are modelled as lists of characters. -/
abbrev Str := List Char

/-- Coerce a Lean string literal into the `Str` model. -/
def str (s : String) : Str := s.data

/-- Python `\s` on the ASCII range: space, tab, newline, carriage return,
form feed, vertical tab (the whitespace class used by `re.sub`, `str.strip`
and `re.match` in `main.py`). -/
def isSpaceCh (c : Char) : Bool :=
  c = ' ' || c = '\t' || c = '\n' || c = '\r' || c = Char.ofNat 11 || c = Char.ofNat 12

/-- Python `\d` on the ASCII range: decimal digits. -/
def isDigitCh (c : Char) : Bool :=
  '0' ≤ c && c ≤ '9'

/-- Python `\w` on the ASCII range: alphanumerics and underscore. -/
def isWordCh (c : Char) : Bool :=
  c.isAlphanum || c = '_'

/-- Characters kept by `re.sub(r"[^\w\s\-\.]", "", name)` in
`sanitize_filename` (main.py line 43). -/
def keepCh (c : Char) : Bool :=
  isWordCh c || isSpaceCh c || c = '-' || c = '.'

/-- Python `str.strip()`: drop whitespace from both ends. -/
def pyStrip (l : Str) : Str :=
  ((l.dropWhile isSpaceCh).reverse.dropWhile isSpaceCh).reverse

/-- Helper for `collapseWs`: the flag records whether the previous character
was whitespace (so a run of whitespace emits a single underscore). -/
def collapseAux : Bool → Str → Str
  | _, [] => []
  | prevSp, c :: cs =>
    if isSpaceCh c then
      if prevSp then collapseAux true cs else '_' :: collapseAux true cs
    else
      c :: collapseAux false cs

/-- Python `re.sub(r"\s+", "_", name)`: replace each maximal run of
whitespace by a single underscore (main.py line 44). -/
def collapseWs (l : Str) : Str := collapseAux false l

/-- `sanitize_filename` (main.py lines 42-45): delete every character that
is not word/whitespace/hyphen/period, strip surrounding whitespace, collapse
whitespace runs to `_`, truncate to 180 characters. -/
def sanitize_filename (name : Str) : Str :=
  let n1 := pyStrip (name.filter keepCh)
  let n2 := collapseWs n1
  if n2.length > 180 then n2.take 180 else n2

/-- The sanitizer as the claim words it (strip disallowed characters,
collapse whitespace runs, truncate) with no intermediate trim of
surrounding whitespace.  Used to compare the claim against the code. -/
def sanitizeSpec (name : Str) : Str :=
  (collapseWs (name.filter keepCh)).take 180

/-- Numeric value of a digit string (the `int()` of a string of decimal
digits). -/
def digitsToNat (ds : Str) : Nat :=
  ds.foldl (fun a c => 10 * a + (c.toNat - 48)) 0

/-- Decimal digits of a natural number. -/
def natDigs (n : Nat) : Str := Nat.toDigits 10 n

/-- Python `f"{n:02d}"` for a non-negative number: zero-pad to width 2. -/
def pad2 (n : Nat) : Str :=
  if n < 10 then '0' :: natDigs n else natDigs n

/-- Decimal rendering of an integer (Python `str`/f-string of an int). -/
def intRepr (i : Int) : Str :=
  if i < 0 then '-' :: natDigs i.natAbs else natDigs i.natAbs

/-- The newline character, the one character Python's `.` never matches. -/
def newlineCh : Char := '\n'

/-- `re.match(r"^(\d+)\s+(.+)$", title.strip())` of `infer_filename`
(main.py line 101): on the stripped title, a maximal nonempty digit prefix,
then a maximal nonempty whitespace run, then a nonempty remainder that `.`
can traverse (no newline).  Returns the two capture groups. -/
def chMatch (t : Str) : Option (Str × Str) :=
  let s := pyStrip t
  let d := s.takeWhile isDigitCh
  let r1 := s.dropWhile isDigitCh
  let w := r1.takeWhile isSpaceCh
  let r2 := r1.dropWhile isSpaceCh
  if d ≠ [] ∧ w ≠ [] ∧ r2 ≠ [] ∧ newlineCh ∉ r2 then some (d, r2) else none

/-- `infer_filename` (main.py lines 99-107). -/
def infer_filename (idx : Nat) (title : Str) : Str :=
  match chMatch title with
  | some (d, rest) =>
    str "Ch" ++ pad2 (digitsToNat d) ++ str "_" ++ sanitize_filename rest ++ str ".pdf"
  | none =>
    str "Part_" ++ pad2 idx ++ str "_" ++ sanitize_filename title ++ str ".pdf"

/-- The claim's reading of the title pattern, applied to the raw title:
some decomposition into a nonempty digit block, a nonempty whitespace
block and a nonempty remainder (no stripping, no newline restriction).
Used to compare the claim against the code. -/
def specPatternB (t : Str) : Bool :=
  let d := t.takeWhile isDigitCh
  let r1 := t.dropWhile isDigitCh
  let w := r1.takeWhile isSpaceCh
  let r2 := r1.dropWhile isSpaceCh
  d ≠ [] && w ≠ [] && r2 ≠ []

/-- One TOC entry: `(title, start)` with `start` the 1-based book page. -/
structure Entry where
  title : Str
  start : Int
deriving DecidableEq, Repr

/-- One resolved chapter range: zero-based inclusive PDF page indices. -/
structure Range where
  title : Str
  pdfStart : Int
  pdfEnd : Int
deriving DecidableEq, Repr

/-- The `ValueError`s `split_pdf` can raise, in structured form: the
out-of-range error carries the offending title and the computed 1-based
page `pdf_start + 1`; the inverted-range error carries the title. -/
inductive SplitError where
  | emptyToc : SplitError
  | outOfRange : Str → Int → SplitError
  | invertedRange : Str → SplitError
deriving DecidableEq, Repr

deriving instance DecidableEq for Except

/-- The apostrophe character used to quote titles in the messages. -/
def quoteCh : Char := Char.ofNat 39

/-- The message text of each error, as built by the f-strings of
main.py lines 114, 121-122 and 130. -/
def SplitError.message : SplitError → Str
  | .emptyToc => str "TOC entries are empty"
  | .outOfRange t p =>
    str "Computed start page " ++ intRepr p ++ str " out of range for title " ++
      [quoteCh] ++ t ++ [quoteCh] ++ str ". Check page_offset or start page."
  | .invertedRange t =>
    str "End before start for " ++ [quoteCh] ++ t ++ [quoteCh] ++
      str ". Check TOC ordering and page_offset."

/-- The range-resolution loop of `split_pdf` (main.py lines 117-131),
processing the entry `e` at the current index with `rest` the remaining
entries.  Mirrors the source: compute `pdf_start`, validate it, compute the
inclusive `pdf_end` from the next entry's start (or the document end),
clamp with `min`, validate `pdf_end ≥ pdf_start`, recurse. -/
def resolveFrom (e : Entry) (rest : List Entry) (total off : Int) :
    Except SplitError (List Range) :=
  if e.start + off - 1 < 0 ∨ total ≤ e.start + off - 1 then
    .error (.outOfRange e.title (e.start + off - 1 + 1))
  else
    match rest with
    | [] =>
      if min (total - 1) (total - 1) < e.start + off - 1 then
        .error (.invertedRange e.title)
      else .ok [⟨e.title, e.start + off - 1, min (total - 1) (total - 1)⟩]
    | e2 :: rest2 =>
      if min (e2.start + off - 2) (total - 1) < e.start + off - 1 then
        .error (.invertedRange e.title)
      else
        (resolveFrom e2 rest2 total off).map
          (fun rs => ⟨e.title, e.start + off - 1, min (e2.start + off - 2) (total - 1)⟩ :: rs)

/-- Range resolution of `split_pdf` (main.py lines 113-131): the empty-TOC
check followed by the resolution loop. -/
def resolveRanges (toc : List Entry) (total off : Int) :
    Except SplitError (List Range) :=
  match toc with
  | [] => .error .emptyToc
  | e :: rest => resolveFrom e rest total off

/-- Whether the 0-based PDF page `p` lies in one of the resolved ranges. -/
def coversB (rs : List Range) (p : Int) : Bool :=
  rs.any (fun r => decide (r.pdfStart ≤ p) && decide (p ≤ r.pdfEnd))

/-- The inclusive end the loop computes for the entry at index `i`
(clamped by `min` with `total - 1`, main.py lines 123-128). -/
def clampedEnd (toc : List Entry) (total off : Int) (i : Nat) : Int :=
  match toc.get? (i + 1) with
  | some e2 => min (e2.start + off - 2) (total - 1)
  | none => total - 1

/-- The unclamped end value for the entry at index `i` (the value before
the `min` on main.py line 128). -/
def rawEndAt (toc : List Entry) (total off : Int) (i : Nat) : Int :=
  match toc.get? (i + 1) with
  | some e2 => e2.start + off - 2
  | none => total - 1

/-- Both validations of the loop succeed at index `i`: the computed start
is inside `[0, total-1]` and does not exceed the clamped end. -/
def passAt (toc : List Entry) (total off : Int) (i : Nat) : Prop :=
  ∀ e, toc.get? i = some e →
    0 ≤ e.start + off - 1 ∧ e.start + off - 1 < total ∧
    e.start + off - 1 ≤ clampedEnd toc total off i

/-- Filesystem effects of `split_pdf`, in program order: the output
directory creation (main.py line 133), one chapter file per range with its
derived name and inclusive page span (lines 135-142), and the manifest
write (lines 146-150). -/
inductive FsEvent where
  | mkdirOut : FsEvent
  | writeChapter : Str → Int → Int → FsEvent
  | writeManifest : Str → FsEvent
deriving DecidableEq, Repr

/-- The manifest text `SPLIT_INDEX.tsv` (main.py lines 148-150): fixed
header, then one row per chapter with 1-based PDF start/end, the book start
page and the title, tab-separated. -/
def manifestContent (toc : List Entry) (rs : List Range) : Str :=
  str "pdf_start\tpdf_end\tbook_start\ttitle\n" ++
    ((toc.zip rs).map (fun p =>
      intRepr (p.2.pdfStart + 1) ++ str "\t" ++ intRepr (p.2.pdfEnd + 1) ++ str "\t" ++
        intRepr p.1.start ++ str "\t" ++ p.1.title ++ str "\n")).flatten

/-- The per-chapter file writes (main.py lines 135-142): chapters are
enumerated from 1 for `infer_filename`. -/
def chapterEvents (rs : List Range) : List FsEvent :=
  (rs.enumFrom 1).map (fun p => .writeChapter (infer_filename p.1 p.2.title) p.2.pdfStart p.2.pdfEnd)

/-- `split_pdf` (main.py lines 110-151) with the PDF backend abstracted to
the page count `total`: the result of the run paired with the ordered list
of filesystem effects it performs. -/
def split_pdf (toc : List Entry) (total off : Int) :
    Except SplitError Unit × List FsEvent :=
  match resolveRanges toc total off with
  | .error e => (.error e, [])
  | .ok rs =>
    (.ok (), FsEvent.mkdirOut :: chapterEvents rs ++
      [FsEvent.writeManifest (manifestContent toc rs)])

/-- Stable insertion of an entry into a list sorted by start page: the new
entry goes after every entry with a smaller-or-equal start, matching the
stability of Python's `list.sort(key=lambda x: x[1])`. -/
def insertEntry (x : Entry) : List Entry → List Entry
  | [] => [x]
  | y :: ys => if x.start ≤ y.start then x :: y :: ys else y :: insertEntry x ys

/-- Stable sort of TOC entries by ascending start page
(`entries.sort(key=lambda x: x[1])`, main.py lines 79 and 95). -/
def sortByStart : List Entry → List Entry
  | [] => []
  | x :: xs => insertEntry x (sortByStart xs)

/-- A JSON value in a mapping-form TOC: either an integer start page or a
nested mapping (main.py lines 56-75). -/
inductive JVal where
  | num : Int → JVal
  | dict : List (Str × JVal) → JVal

mutual

/-- Depth-first leaves of one mapping value: a leaf key/int pair becomes
one entry, a nested mapping contributes its own leaves (the `flatten` /
`load_dict` pair of main.py lines 58-73; keys of nested mappings are
dropped). -/
def flattenVal (k : Str) : JVal → List Entry
  | .num n => [⟨k, n⟩]
  | .dict d => flattenDict d

/-- Depth-first leaves of a mapping, in key order. -/
def flattenDict : List (Str × JVal) → List Entry
  | [] => []
  | (k, v) :: rest => flattenVal k v ++ flattenDict rest

end

/-- A TOC JSON document: the list form (objects with `title`/`start`) or
the mapping form (possibly nested). -/
inductive TocJson where
  | list : List Entry → TocJson
  | dict : List (Str × JVal) → TocJson

/-- `load_toc_from_json` (main.py lines 48-80) on a structurally valid
document: collect entries (flattening the mapping form depth-first), then
stable-sort by start page. -/
def load_toc_from_json : TocJson → List Entry
  | .list items => sortByStart items
  | .dict d => sortByStart (flattenDict d)

/-- Split a line at every tab character, keeping empty fields
(Python `line.split("\t")`). -/
def splitTabAux (acc : Str) : Str → List Str
  | [] => [acc.reverse]
  | c :: cs => if c = '\t' then acc.reverse :: splitTabAux [] cs else splitTabAux (c :: acc) cs

/-- Python `line.split("\t")`. -/
def splitTab (l : Str) : List Str := splitTabAux [] l

/-- A nonempty all-digit string parses to its value. -/
def digitsOnly (ds : Str) : Option Nat :=
  if ds ≠ [] ∧ ds.all isDigitCh then some (digitsToNat ds) else none

/-- Python `int(s)` on a string: surrounding whitespace is allowed, then an
optional sign and a nonempty run of decimal digits; anything else raises
(`none`). -/
def pyInt (s : Str) : Option Int :=
  match pyStrip s with
  | '+' :: ds => (digitsOnly ds).map (fun n => (n : Int))
  | '-' :: ds => (digitsOnly ds).map (fun n => -(n : Int))
  | ds => (digitsOnly ds).map (fun n => (n : Int))

/-- One iteration of the `load_toc_from_tsv` loop (main.py lines 85-94):
strip the line; skip it when empty or a `#` comment; otherwise split on
tabs, require at least two fields, parse the first as the start page and
strip the second as the title.  Fields past the second are ignored. -/
def tsvLine (line : Str) : Except Str (List Entry) :=
  let l := pyStrip line
  if l = [] then .ok []
  else if l.head? = some '#' then .ok []
  else
    match splitTab l with
    | f0 :: f1 :: _ =>
      match pyInt f0 with
      | some n => .ok [⟨pyStrip f1, n⟩]
      | none => .error (str "invalid literal for int() with base 10")
    | _ => .error (str "Invalid TSV line")

/-- The whole `load_toc_from_tsv` loop body: concatenate the entries of
every line, propagating the first error. -/
def tsvEntries : List Str → Except Str (List Entry)
  | [] => .ok []
  | l :: ls =>
    match tsvLine l with
    | .ok es => (tsvEntries ls).map (fun rest => es ++ rest)
    | .error e => .error e

/-- `load_toc_from_tsv` (main.py lines 83-96): the loop, then the stable
sort by start page. -/
def load_toc_from_tsv (lines : List Str) : Except Str (List Entry) :=
  (tsvEntries lines).map sortByStart

/-- Pointwise description of a successful resolution: the output has one
range per entry; the range at index `i` keeps the entry's title, starts at
`start + off - 1`, ends at the unclamped end value (the `min` clamp is a
no-op in a successful run), and satisfies
`0 ≤ pdfStart ≤ pdfEnd ≤ total - 1`. -/
theorem resolveFrom_ok_spec (total off : Int) :
    ∀ (rest : List Entry) (e : Entry) (rs : List Range),
      resolveFrom e rest total off = .ok rs →
      rs.length = rest.length + 1 ∧
      ∀ i r x, rs.get? i = some r → (e :: rest).get? i = some x →
        r.title = x.title ∧ r.pdfStart = x.start + off - 1 ∧
        r.pdfEnd = rawEndAt (e :: rest) total off i ∧
        0 ≤ r.pdfStart ∧ r.pdfStart ≤ r.pdfEnd ∧ r.pdfEnd ≤ total - 1 := by
  intro rest
  induction rest with
  | nil =>
    intro e rs h
    rw [resolveFrom] at h
    split at h
    · exact absurd h (by simp)
    · split at h
      · exact absurd h (by simp)
      · rename_i hbad hinv
        rw [Except.ok.injEq] at h
        subst h
        refine ⟨rfl, ?_⟩
        intro i r x hr hx
        match i with
        | 0 =>
          simp only [List.get?] at hr hx
          rw [Option.some.injEq] at hr hx
          subst hr; subst hx
          push_neg at hbad
          rw [not_lt] at hinv
          refine ⟨rfl, rfl, ?_, ?_, ?_, ?_⟩
          · simp [rawEndAt]
          · show (0 : Int) ≤ e.start + off - 1
            omega
          · simpa using hinv
          · simp
        | i + 1 =>
          simp at hr
  | cons e2 rest2 ih =>
    intro e rs h
    rw [resolveFrom] at h
    split at h
    · exact absurd h (by simp)
    · split at h
      · exact absurd h (by simp)
      · rename_i hbad hinv
        rcases hres : resolveFrom e2 rest2 total off with err | rs'
        · rw [hres] at h; exact absurd h (by simp [Except.map])
        · rw [hres] at h
          simp only [Except.map, Except.ok.injEq] at h
          subst h
          obtain ⟨hlen', hpt'⟩ := ih e2 rs' hres
          have hrs'ne : rs' ≠ [] := by
            intro hnil; rw [hnil] at hlen'; simp at hlen'
          obtain ⟨r1, rs'', rfl⟩ : ∃ r1 rs'', rs' = r1 :: rs'' := by
            cases rs' with
            | nil => exact absurd rfl hrs'ne
            | cons a b => exact ⟨a, b, rfl⟩
          have hhead := hpt' 0 r1 e2 rfl rfl
          have hclamp : min (e2.start + off - 2) (total - 1) = e2.start + off - 2 := by
            have h1 : r1.pdfStart = e2.start + off - 1 := hhead.2.1
            have h2 : r1.pdfStart ≤ r1.pdfEnd := hhead.2.2.2.2.1
            have h3 : r1.pdfEnd ≤ total - 1 := hhead.2.2.2.2.2
            omega
          constructor
          · simp [hlen']
          · intro i r x hr hx
            match i with
            | 0 =>
              simp only [List.get?] at hr hx
              rw [Option.some.injEq] at hr hx
              subst hr; subst hx
              push_neg at hbad
              rw [not_lt] at hinv
              refine ⟨rfl, rfl, ?_, ?_, ?_, ?_⟩
              · simp only [rawEndAt, List.get?]
                exact hclamp
              · show (0 : Int) ≤ e.start + off - 1
                omega
              · exact hinv
              · exact min_le_right _ _
            | i + 1 =>
              simp only [List.get?] at hr hx
              have := hpt' i r x hr hx
              refine ⟨this.1, this.2.1, ?_, this.2.2.2⟩
              rw [this.2.2.1]
              simp [rawEndAt, List.get?]

/-- Shifting `passAt` across a cons. -/
theorem passAt_cons (a : Entry) (l : List Entry) (total off : Int) (j : Nat) :
    passAt (a :: l) total off (j + 1) ↔ passAt l total off j := by
  simp [passAt, clampedEnd, List.get?_cons_succ]

/-- If every entry before index `i` passes both validations and the entry
at `i` has its computed start outside `[0, total-1]`, the resolution raises
the out-of-range error for that entry, with the 1-based page. -/
theorem resolveRanges_err_oor (total off : Int) :
    ∀ (toc : List Entry) (i : Nat) (e : Entry),
      (∀ j, j < i → passAt toc total off j) →
      toc.get? i = some e →
      (e.start + off - 1 < 0 ∨ total ≤ e.start + off - 1) →
      resolveRanges toc total off = .error (.outOfRange e.title (e.start + off - 1 + 1)) := by
  intro toc
  induction toc with
  | nil => intro i e _ hget _; simp at hget
  | cons a rest ih =>
    intro i e hpass hget hbad
    match i with
    | 0 =>
      simp only [List.get?, Option.some.injEq] at hget
      subst hget
      match rest with
      | [] => rw [resolveRanges, resolveFrom, if_pos hbad]
      | b :: rest2 => rw [resolveRanges, resolveFrom, if_pos hbad]
    | i + 1 =>
      have hpa := hpass 0 (Nat.succ_pos i) a rfl
      rw [List.get?_cons_succ] at hget
      match rest with
      | [] => simp at hget
      | b :: rest2 =>
        have htail : resolveRanges (b :: rest2) total off =
            .error (.outOfRange e.title (e.start + off - 1 + 1)) := by
          refine ih i e ?_ hget hbad
          intro j hj
          exact (passAt_cons a (b :: rest2) total off j).mp (hpass (j + 1) (by omega))
        rw [resolveRanges] at htail
        rw [resolveRanges, resolveFrom, if_neg (by omega)]
        have hinv : ¬ (min (b.start + off - 2) (total - 1) < a.start + off - 1) := by
          have := hpa.2.2
          simp only [clampedEnd, List.get?] at this
          omega
        rw [if_neg hinv, htail]
        rfl

/-- If every entry before index `i` passes both validations, the entry at
`i` has its start in range but its clamped end before its start, the
resolution raises the inverted-range error for that entry. -/
theorem resolveRanges_err_inv (total off : Int) :
    ∀ (toc : List Entry) (i : Nat) (e : Entry),
      (∀ j, j < i → passAt toc total off j) →
      toc.get? i = some e →
      0 ≤ e.start + off - 1 → e.start + off - 1 < total →
      clampedEnd toc total off i < e.start + off - 1 →
      resolveRanges toc total off = .error (.invertedRange e.title) := by
  intro toc
  induction toc with
  | nil => intro i e _ hget _ _ _; simp at hget
  | cons a rest ih =>
    intro i e hpass hget h0 h1 hinv
    match i with
    | 0 =>
      simp only [List.get?, Option.some.injEq] at hget
      subst hget
      match rest with
      | [] =>
        simp only [clampedEnd, List.get?] at hinv
        rw [resolveRanges, resolveFrom, if_neg (by omega), if_pos (by omega)]
      | b :: rest2 =>
        simp only [clampedEnd, List.get?] at hinv
        rw [resolveRanges, resolveFrom, if_neg (by omega), if_pos (by omega)]
    | i + 1 =>
      have hpa := hpass 0 (Nat.succ_pos i) a rfl
      rw [List.get?_cons_succ] at hget
      match rest with
      | [] => simp at hget
      | b :: rest2 =>
        have htail : resolveRanges (b :: rest2) total off =
            .error (.invertedRange e.title) := by
          refine ih i e ?_ hget h0 h1 ?_
          · intro j hj
            exact (passAt_cons a (b :: rest2) total off j).mp (hpass (j + 1) (by omega))
          · simpa only [clampedEnd, List.get?_cons_succ] using hinv
        rw [resolveRanges] at htail
        rw [resolveRanges, resolveFrom, if_neg (by omega)]
        have hinv0 : ¬ (min (b.start + off - 2) (total - 1) < a.start + off - 1) := by
          have := hpa.2.2
          simp only [clampedEnd, List.get?] at this
          omega
        rw [if_neg hinv0, htail]
        rfl

/-- Every out-of-range error produced by the resolution comes from an entry
of the TOC whose computed start is outside `[0, total-1]`, and carries that
entry's title and its computed 1-based page. -/
theorem resolveRanges_oor_shape (total off : Int) :
    ∀ (toc : List Entry) (t : Str) (p : Int),
      resolveRanges toc total off = .error (.outOfRange t p) →
      ∃ e, e ∈ toc ∧ e.title = t ∧ p = e.start + off ∧
        (e.start + off - 1 < 0 ∨ total ≤ e.start + off - 1) := by
  intro toc
  induction toc with
  | nil => intro t p h; rw [resolveRanges] at h; simp at h
  | cons a rest ih =>
    intro t p h
    match rest with
    | [] =>
      rw [resolveRanges, resolveFrom] at h
      split at h
      · rename_i hbad
        simp only [Except.error.injEq, SplitError.outOfRange.injEq] at h
        exact ⟨a, List.mem_cons_self a [], h.1, by omega, hbad⟩
      · split at h
        · simp at h
        · simp at h
    | b :: rest2 =>
      rw [resolveRanges, resolveFrom] at h
      split at h
      · rename_i hbad
        simp only [Except.error.injEq, SplitError.outOfRange.injEq] at h
        exact ⟨a, List.mem_cons_self a (b :: rest2), h.1, by omega, hbad⟩
      · split at h
        · simp at h
        · rcases hres : resolveFrom b rest2 total off with err | rs'
          · rw [hres] at h
            simp only [Except.map, Except.error.injEq] at h
            subst h
            obtain ⟨e, he, h1, h2, h3⟩ := ih t p (by rw [resolveRanges]; exact hres)
            exact ⟨e, List.mem_cons_of_mem a he, h1, h2, h3⟩
          · rw [hres] at h
            simp [Except.map] at h

/-- Consequences of a successful resolution, in the index-free forms the
claims use: one range per entry; bounds `0 ≤ pdfStart ≤ pdfEnd ≤ total-1`;
adjacent ranges meet with no gap and no overlap; the last range ends at
`total - 1`; a non-final range's end is the unclamped `next_start + off - 2`;
the first range starts at `first_start + off - 1`. -/
theorem resolveRanges_ok_facts (toc : List Entry) (total off : Int) (rs : List Range)
    (h : resolveRanges toc total off = .ok rs) :
    rs.length = toc.length ∧
    (∀ r ∈ rs, 0 ≤ r.pdfStart ∧ r.pdfStart ≤ r.pdfEnd ∧ r.pdfEnd ≤ total - 1) ∧
    (∀ i a b, rs.get? i = some a → rs.get? (i + 1) = some b → a.pdfEnd + 1 = b.pdfStart) ∧
    (∀ r, rs.getLast? = some r → r.pdfEnd = total - 1) ∧
    (∀ i a x, rs.get? i = some a → toc.get? (i + 1) = some x → a.pdfEnd = x.start + off - 2) ∧
    (∀ a x, rs.head? = some a → toc.head? = some x → a.pdfStart = x.start + off - 1) := by
  match toc with
  | [] => rw [resolveRanges] at h; exact absurd h (by simp)
  | e :: rest =>
    rw [resolveRanges] at h
    obtain ⟨hlen, hpt⟩ := resolveFrom_ok_spec total off rest e rs h
    have hlen' : rs.length = (e :: rest).length := by simpa using hlen
    have hget : ∀ i r, rs.get? i = some r → ∃ x, (e :: rest).get? i = some x := by
      intro i r hr
      have hi : i < rs.length := by
        rcases List.get?_eq_some.mp hr with ⟨hi, _⟩
        exact hi
      have hi' : i < (e :: rest).length := by omega
      exact ⟨(e :: rest).get ⟨i, hi'⟩, List.get?_eq_get hi'⟩
    refine ⟨hlen', ?_, ?_, ?_, ?_, ?_⟩
    · intro r hr
      obtain ⟨i, hi⟩ := List.mem_iff_get?.mp hr
      obtain ⟨x, hx⟩ := hget i r hi
      exact (hpt i r x hi hx).2.2.2
    · intro i a b ha hb
      obtain ⟨x, hx⟩ := hget (i + 1) b hb
      obtain ⟨x0, hx0⟩ := hget i a ha
      have hea := (hpt i a x0 ha hx0).2.2.1
      have hsb := (hpt (i + 1) b x hb hx).2.1
      simp only [rawEndAt, hx] at hea
      omega
    · intro r hr
      rw [List.getLast?_eq_getElem?, ← List.get?_eq_getElem?] at hr
      have hne : rs.length ≠ 0 := by
        intro h0
        rw [List.get?_eq_none.mpr (by omega)] at hr
        exact absurd hr (by simp)
      obtain ⟨x, hx⟩ := hget (rs.length - 1) r hr
      have := (hpt (rs.length - 1) r x hr hx).2.2.1
      have hnone : (e :: rest).get? (rs.length - 1 + 1) = none :=
        List.get?_eq_none.mpr (by omega)
      simp only [rawEndAt, hnone] at this
      exact this
    · intro i a x ha hx
      obtain ⟨x0, hx0⟩ := hget i a ha
      have := (hpt i a x0 ha hx0).2.2.1
      simp only [rawEndAt, hx] at this
      exact this
    · intro a x ha hx
      match rs, hlen with
      | r0 :: rs'', _ =>
        simp only [List.head?, Option.some.injEq] at ha hx
        subst ha; subst hx
        exact (hpt 0 _ _ rfl rfl).2.1

/-- In a list of ranges whose adjacent members meet end-to-start and whose
members are non-empty intervals, every later member starts after the head's
end. -/
theorem head_lt_of_chain :
    ∀ (l : List Range) (a : Range),
      (∀ r ∈ a :: l, r.pdfStart ≤ r.pdfEnd) →
      (∀ i x y, (a :: l).get? i = some x → (a :: l).get? (i + 1) = some y →
        x.pdfEnd + 1 = y.pdfStart) →
      ∀ b ∈ l, a.pdfEnd < b.pdfStart := by
  intro l
  induction l with
  | nil => intro a _ _ b hb; simp at hb
  | cons c t ih =>
    intro a hbnd hchain b hb
    have hac : a.pdfEnd + 1 = c.pdfStart := hchain 0 a c rfl rfl
    rcases List.mem_cons.mp hb with hbc | hbt
    · subst hbc; omega
    · have hcb := ih c (fun r hr => hbnd r (List.mem_cons_of_mem a hr))
        (fun i x y hx hy => hchain (i + 1) x y (by simpa using hx) (by simpa using hy))
        b hbt
      have hcc : c.pdfStart ≤ c.pdfEnd := hbnd c (by simp)
      omega

/-- Ranges meeting end-to-start with non-empty intervals are pairwise
ordered, hence pairwise disjoint. -/
theorem pdisj_of_chain :
    ∀ (rs : List Range),
      (∀ r ∈ rs, r.pdfStart ≤ r.pdfEnd) →
      (∀ i x y, rs.get? i = some x → rs.get? (i + 1) = some y →
        x.pdfEnd + 1 = y.pdfStart) →
      List.Pairwise (fun x y => x.pdfEnd < y.pdfStart) rs := by
  intro rs
  induction rs with
  | nil => intro _ _; exact List.Pairwise.nil
  | cons a l ih =>
    intro hbnd hchain
    refine List.Pairwise.cons ?_ ?_
    · exact head_lt_of_chain l a hbnd hchain
    · exact ih (fun r hr => hbnd r (List.mem_cons_of_mem a hr))
        (fun i x y hx hy => hchain (i + 1) x y (by simpa using hx) (by simpa using hy))

/-- A chain of adjacent non-empty ranges whose last member ends at
`total - 1` covers exactly the interval from the head's start to
`total - 1`. -/
theorem covers_iff_of_chain :
    ∀ (rs : List Range) (a : Range) (total : Int),
      (∀ r ∈ a :: rs, r.pdfStart ≤ r.pdfEnd ∧ r.pdfEnd ≤ total - 1) →
      (∀ i x y, (a :: rs).get? i = some x → (a :: rs).get? (i + 1) = some y →
        x.pdfEnd + 1 = y.pdfStart) →
      (∀ r, (a :: rs).getLast? = some r → r.pdfEnd = total - 1) →
      ∀ p : Int, coversB (a :: rs) p = true ↔ (a.pdfStart ≤ p ∧ p ≤ total - 1) := by
  intro rs
  induction rs with
  | nil =>
    intro a total hbnd _ hlast p
    have ha := hlast a rfl
    simp only [coversB, List.any_cons, List.any_nil, Bool.or_false, Bool.and_eq_true,
      decide_eq_true_eq]
    omega
  | cons b t ih =>
    intro a total hbnd hchain hlast p
    have hab : a.pdfEnd + 1 = b.pdfStart := hchain 0 a b rfl rfl
    have haa := hbnd a (by simp)
    have htail := ih b total (fun r hr => hbnd r (List.mem_cons_of_mem a hr))
      (fun i x y hx hy => hchain (i + 1) x y (by simpa using hx) (by simpa using hy))
      (fun r hr => hlast r (by rw [List.getLast?_cons_cons]; exact hr)) p
    have hgoal : coversB (a :: b :: t) p =
        ((decide (a.pdfStart ≤ p) && decide (p ≤ a.pdfEnd)) || coversB (b :: t) p) := rfl
    rw [hgoal, Bool.or_eq_true, Bool.and_eq_true, decide_eq_true_eq, decide_eq_true_eq, htail]
    omega

/-- If nothing of `l` is taken by `takeWhile`, `dropWhile` keeps `l`. -/
theorem dropWhile_eq_self_of_takeWhile_nil {α : Type} (p : α → Bool) (l : List α)
    (h : l.takeWhile p = []) : l.dropWhile p = l := by
  cases l with
  | nil => rfl
  | cons c t =>
    rw [List.takeWhile_cons] at h
    split at h
    · exact absurd h (by simp)
    · rename_i hpc
      rw [List.dropWhile_cons, if_neg hpc]

/-- `takeWhile`/`dropWhile` on an append whose left part satisfies the
predicate everywhere and whose right part starts by failing it. -/
theorem takeWhile_append_all {α : Type} (p : α → Bool) :
    ∀ (xs ys : List α), (∀ x ∈ xs, p x = true) → ys.takeWhile p = [] →
      (xs ++ ys).takeWhile p = xs ∧ (xs ++ ys).dropWhile p = ys := by
  intro xs
  induction xs with
  | nil =>
    intro ys _ hys
    exact ⟨by simpa using hys, by simpa using dropWhile_eq_self_of_takeWhile_nil p ys hys⟩
  | cons x xs' ih =>
    intro ys hall hys
    have hx : p x = true := hall x (by simp)
    obtain ⟨h1, h2⟩ := ih ys (fun a ha => hall a (by simp [ha])) hys
    constructor
    · rw [List.cons_append, List.takeWhile_cons, if_pos hx, h1]
    · rw [List.cons_append, List.dropWhile_cons, if_pos hx, h2]

/-- A whitespace character is not a digit. -/
theorem space_not_digit (c : Char) (h : isSpaceCh c = true) : isDigitCh c = false := by
  simp only [isSpaceCh, Bool.or_eq_true, decide_eq_true_eq] at h
  rcases h with ((((h | h) | h) | h) | h) | h <;> subst h <;> decide

/-- Characters of `collapseAux` output: either the inserted underscore or a
non-whitespace character of the input. -/
theorem mem_collapseAux :
    ∀ (l : Str) (b : Bool) (c : Char), c ∈ collapseAux b l →
      c = '_' ∨ (c ∈ l ∧ isSpaceCh c = false) := by
  intro l
  induction l with
  | nil => intro b c hc; simp [collapseAux] at hc
  | cons x xs ih =>
    intro b c hc
    rw [collapseAux] at hc
    split at hc
    · split at hc
      · rcases ih true c hc with h | ⟨h1, h2⟩
        · exact Or.inl h
        · exact Or.inr ⟨List.mem_cons_of_mem x h1, h2⟩
      · rcases List.mem_cons.mp hc with h | h
        · exact Or.inl h
        · rcases ih true c h with h' | ⟨h1, h2⟩
          · exact Or.inl h'
          · exact Or.inr ⟨List.mem_cons_of_mem x h1, h2⟩
    · rename_i hns
      rcases List.mem_cons.mp hc with h | h
      · subst h
        exact Or.inr ⟨List.mem_cons_self c xs, by simpa using hns⟩
      · rcases ih false c h with h' | ⟨h1, h2⟩
        · exact Or.inl h'
        · exact Or.inr ⟨List.mem_cons_of_mem x h1, h2⟩

/-- `pyStrip` only removes characters. -/
theorem mem_pyStrip (l : Str) (c : Char) (h : c ∈ pyStrip l) : c ∈ l := by
  rw [pyStrip, List.mem_reverse] at h
  have h1 := List.Sublist.mem h (List.dropWhile_sublist _)
  rw [List.mem_reverse] at h1
  exact List.Sublist.mem h1 (List.dropWhile_sublist _)

/-- Characters of the sanitized name: the inserted underscore, or a kept,
non-whitespace character of the input. -/
theorem mem_sanitize (name : Str) (c : Char) (h : c ∈ sanitize_filename name) :
    c = '_' ∨ (c ∈ name ∧ keepCh c = true ∧ isSpaceCh c = false) := by
  simp only [sanitize_filename] at h
  have hc2 : c ∈ collapseWs (pyStrip (name.filter keepCh)) := by
    split at h
    · exact List.take_subset _ _ h
    · exact h
  rw [collapseWs] at hc2
  rcases mem_collapseAux _ false c hc2 with h' | ⟨h1, h2⟩
  · exact Or.inl h'
  · have h3 := mem_pyStrip _ c h1
    rw [List.mem_filter] at h3
    exact Or.inr ⟨h3.1, h3.2, h2⟩

/-- A decomposition of the stripped title into digits, whitespace and a
greedy remainder makes the chapter-number regex match with those capture
groups. -/
theorem chMatch_eq_some (t d w r : Str)
    (hsplit : pyStrip t = d ++ w ++ r)
    (hd : d ≠ []) (hdall : ∀ c ∈ d, isDigitCh c = true)
    (hw : w ≠ []) (hwall : ∀ c ∈ w, isSpaceCh c = true)
    (hr : r ≠ []) (hrtw : r.takeWhile isSpaceCh = [])
    (hnl : newlineCh ∉ r) :
    chMatch t = some (d, r) := by
  obtain ⟨c0, w', rfl⟩ : ∃ c0 w', w = c0 :: w' := by
    cases w with
    | nil => exact absurd rfl hw
    | cons a b => exact ⟨a, b, rfl⟩
  have hsplit' : pyStrip t = d ++ ((c0 :: w') ++ r) := by
    rw [hsplit, List.append_assoc]
  have hwr_tw : ((c0 :: w') ++ r).takeWhile isDigitCh = [] := by
    rw [List.cons_append, List.takeWhile_cons,
      if_neg (by rw [space_not_digit c0 (hwall c0 (by simp))]; simp)]
  have h1 := takeWhile_append_all isDigitCh d ((c0 :: w') ++ r) hdall hwr_tw
  have h2 := takeWhile_append_all isSpaceCh (c0 :: w') r hwall hrtw
  simp only [chMatch, hsplit', h1.1, h1.2, h2.1, h2.2]
  rw [if_pos ⟨hd, by simp, hr, hnl⟩]

/-- Conversely, a successful chapter-number match yields such a
decomposition of the stripped title. -/
theorem chMatch_decomp (t d r : Str) (h : chMatch t = some (d, r)) :
    ∃ w, pyStrip t = d ++ w ++ r ∧ d ≠ [] ∧ (∀ c ∈ d, isDigitCh c = true) ∧
      w ≠ [] ∧ (∀ c ∈ w, isSpaceCh c = true) ∧ r ≠ [] ∧ newlineCh ∉ r := by
  simp only [chMatch] at h
  split at h
  · rename_i hcond
    rw [Option.some.injEq, Prod.mk.injEq] at h
    obtain ⟨hd, hr⟩ := h
    subst hd; subst hr
    refine ⟨((pyStrip t).dropWhile isDigitCh).takeWhile isSpaceCh, ?_, hcond.1,
      ?_, hcond.2.1, ?_, hcond.2.2.1, hcond.2.2.2⟩
    · rw [List.append_assoc, List.takeWhile_append_dropWhile, List.takeWhile_append_dropWhile]
    · intro c hc; exact List.mem_takeWhile_imp hc
    · intro c hc; exact List.mem_takeWhile_imp hc
  · exact absurd h (by simp)

/-- C1 (counterexample): a well-formed one-entry TOC whose first chapter
starts at book page 2, with `total_pages = 5` and offset 0, resolves
successfully to the single range `[1, 4]`, which does not cover page 0 —
so the union of the resolved ranges does not partition `[0, total-1]`. -/
theorem c1_counterexample :
    resolveRanges [⟨str "A", 2⟩] 5 0 = .ok [⟨str "A", 1, 4⟩] ∧
    coversB [⟨str "A", 1, 4⟩] 0 = false := by decide

/-- C1 (amended): whenever resolution succeeds, it produces exactly one
range per TOC entry, the ranges are pairwise disjoint, the last ends at
`total - 1`, and their union is exactly the interval from the first
entry's computed start `start₀ + offset - 1` (not necessarily 0) up to
`total - 1`. -/
theorem c1_partition (e : Entry) (rest : List Entry) (total off : Int) (rs : List Range)
    (h : resolveRanges (e :: rest) total off = .ok rs) :
    rs.length = (e :: rest).length ∧
    (∀ p : Int, coversB rs p = true ↔ (e.start + off - 1 ≤ p ∧ p ≤ total - 1)) ∧
    List.Pairwise (fun x y => ∀ p : Int, x.pdfStart ≤ p → p ≤ x.pdfEnd →
      ¬(y.pdfStart ≤ p ∧ p ≤ y.pdfEnd)) rs ∧
    (∀ r, rs.getLast? = some r → r.pdfEnd = total - 1) := by
  obtain ⟨hlen, hbnd, hchain, hlast, _, hhead⟩ := resolveRanges_ok_facts _ total off rs h
  obtain ⟨a, rs', rfl⟩ : ∃ a rs', rs = a :: rs' := by
    cases rs with
    | nil => simp at hlen
    | cons a rs' => exact ⟨a, rs', rfl⟩
  have hsa : a.pdfStart = e.start + off - 1 := hhead a e rfl rfl
  refine ⟨hlen, ?_, ?_, hlast⟩
  · intro p
    rw [covers_iff_of_chain rs' a total
      (fun r hr => ⟨(hbnd r hr).2.1, (hbnd r hr).2.2⟩) hchain hlast p, hsa]
  · have hp := pdisj_of_chain (a :: rs') (fun r hr => (hbnd r hr).2.1) hchain
    exact hp.imp (fun hxy p hp1 hp2 hp3 => by omega)

/-- C1 (witness for the amended theorem): the two-chapter TOC starting at
book page 1 with `total = 5`, offset 0 resolves to `[0,1],[2,4]`, whose
union is exactly `[0, 4]`. -/
theorem c1_partition_witness :
    (resolveRanges [⟨str "A", 1⟩, ⟨str "B", 3⟩] 5 0 =
      .ok [⟨str "A", 0, 1⟩, ⟨str "B", 2, 4⟩]) ∧
    (∀ p : Int, coversB [⟨str "A", 0, 1⟩, ⟨str "B", 2, 4⟩] p = true ↔
      (1 + 0 - 1 ≤ p ∧ p ≤ 5 - 1)) :=
  ⟨by decide, (c1_partition ⟨str "A", 1⟩ [⟨str "B", 3⟩] 5 0 _ (by decide)).2.1⟩

/-- C2: in every successful resolution, every range satisfies
`0 ≤ pdf_start_index ≤ pdf_end_index ≤ total_pages - 1`, consecutive
ranges satisfy `range[i].pdf_end_index + 1 = range[i+1].pdf_start_index`,
the last range ends at `total_pages - 1`, and every non-final range's end
equals the unclamped `next_start + offset - 2` (the `min` clamp of step 3
never shortens a non-final range in a successful run). -/
theorem c2_invariants (toc : List Entry) (total off : Int) (rs : List Range)
    (h : resolveRanges toc total off = .ok rs) :
    (∀ r ∈ rs, 0 ≤ r.pdfStart ∧ r.pdfStart ≤ r.pdfEnd ∧ r.pdfEnd ≤ total - 1) ∧
    (∀ i a b, rs.get? i = some a → rs.get? (i + 1) = some b → a.pdfEnd + 1 = b.pdfStart) ∧
    (∀ r, rs.getLast? = some r → r.pdfEnd = total - 1) ∧
    (∀ i a x, rs.get? i = some a → toc.get? (i + 1) = some x → a.pdfEnd = x.start + off - 2) := by
  obtain ⟨_, h1, h2, h3, h4, _⟩ := resolveRanges_ok_facts toc total off rs h
  exact ⟨h1, h2, h3, h4⟩

/-- C2 (witness): the invariants instantiated on a concrete successful
run. -/
theorem c2_invariants_witness :
    (resolveRanges [⟨str "A", 1⟩, ⟨str "B", 3⟩] 5 0 =
      .ok [⟨str "A", 0, 1⟩, ⟨str "B", 2, 4⟩]) ∧
    (∀ r ∈ ([⟨str "A", 0, 1⟩, ⟨str "B", 2, 4⟩] : List Range),
      0 ≤ r.pdfStart ∧ r.pdfStart ≤ r.pdfEnd ∧ r.pdfEnd ≤ 5 - 1) :=
  ⟨by decide, (c2_invariants [⟨str "A", 1⟩, ⟨str "B", 3⟩] 5 0 _ (by decide)).1⟩

/-- C3 (counterexample): a TOC entry with start page 0 and the
non-negative offset 2 resolves successfully (computed
`pdf_start = 0 + 2 - 1 = 1` is in range), so a start page of 0 with a
non-negative offset does not necessarily raise the out-of-range error. -/
theorem c3_counterexample :
    resolveRanges [⟨str "A", 0⟩] 10 2 = .ok [⟨str "A", 1, 9⟩] := by decide

/-- C3 (amended): resolution raises the out-of-range error for the entry
at index `i` exactly when its computed `pdf_start = start + offset - 1`
falls outside `[0, total-1]` and all earlier entries pass both
validations; the error message names the offending title and the computed
1-based page `pdf_start + 1`.  In particular a start page ≤ 0 raises it
when the offset is 0 (not for every non-negative offset), and a computed
start `≥ total` raises it for the first entry. -/
theorem c3_out_of_range :
    (∀ (toc : List Entry) (total off : Int) (i : Nat) (e : Entry),
      (∀ j, j < i → passAt toc total off j) →
      toc.get? i = some e →
      (e.start + off - 1 < 0 ∨ total ≤ e.start + off - 1) →
      resolveRanges toc total off = .error (.outOfRange e.title (e.start + off - 1 + 1))) ∧
    (∀ (toc : List Entry) (total off : Int) (t : Str) (p : Int),
      resolveRanges toc total off = .error (.outOfRange t p) →
      ∃ e, e ∈ toc ∧ e.title = t ∧ p = e.start + off ∧
        (e.start + off - 1 < 0 ∨ total ≤ e.start + off - 1)) ∧
    (∀ (t : Str) (p : Int), ∃ a b, SplitError.message (.outOfRange t p) = a ++ t ++ b) ∧
    (∀ (t : Str) (p : Int), ∃ a b, SplitError.message (.outOfRange t p) = a ++ intRepr p ++ b) ∧
    (∀ (e : Entry) (rest : List Entry) (total : Int), e.start ≤ 0 →
      resolveRanges (e :: rest) total 0 = .error (.outOfRange e.title e.start)) ∧
    (∀ (e : Entry) (rest : List Entry) (total off : Int), total ≤ e.start + off - 1 →
      resolveRanges (e :: rest) total off = .error (.outOfRange e.title (e.start + off))) := by
  refine ⟨fun toc total off => resolveRanges_err_oor total off toc,
    fun toc total off => resolveRanges_oor_shape total off toc, ?_, ?_, ?_, ?_⟩
  · intro t p
    refine ⟨str "Computed start page " ++ intRepr p ++ str " out of range for title " ++
      [quoteCh], [quoteCh] ++ str ". Check page_offset or start page.", ?_⟩
    simp [SplitError.message, List.append_assoc]
  · intro t p
    refine ⟨str "Computed start page ",
      str " out of range for title " ++ [quoteCh] ++ t ++ [quoteCh] ++
        str ". Check page_offset or start page.", ?_⟩
    simp [SplitError.message, List.append_assoc]
  · intro e rest total h
    have h2 := resolveRanges_err_oor total 0 (e :: rest) 0 e
      (fun j hj => absurd hj (Nat.not_lt_zero j)) rfl (Or.inl (by omega))
    have he : e.start + 0 - 1 + 1 = e.start := by omega
    rw [he] at h2
    exact h2
  · intro e rest total off h
    have h2 := resolveRanges_err_oor total off (e :: rest) 0 e
      (fun j hj => absurd hj (Nat.not_lt_zero j)) rfl (Or.inr h)
    have he : e.start + off - 1 + 1 = e.start + off := by omega
    rw [he] at h2
    exact h2

/-- C3 (witness): start page 0 at offset 0 is out of range and raises the
error naming the title and the computed 1-based page 0. -/
theorem c3_out_of_range_witness :
    ((0 : Int) ≤ 0) ∧
    resolveRanges [⟨str "A", 0⟩] 10 0 = .error (.outOfRange (str "A") 0) :=
  ⟨le_refl 0, c3_out_of_range.2.2.2.2.1 ⟨str "A", 0⟩ [] 10 (by decide)⟩

/-- C4 (counterexample): the TOC `[("A",20),("B",20)]` with `total = 10`,
offset 0 has two consecutive entries sharing the same effective start
page, yet resolution raises the out-of-range error for "A" (whose start is
itself out of range), not the inverted-range error the claim requires. -/
theorem c4_counterexample :
    resolveRanges [⟨str "A", 20⟩, ⟨str "B", 20⟩] 10 0 =
      .error (.outOfRange (str "A") 20) ∧
    SplitError.outOfRange (str "A") 20 ≠ SplitError.invertedRange (str "A") := by
  decide

/-- C4 (amended): when two consecutive entries share the same effective
start page, the earlier entry's computed start is inside `[0, total-1]`,
and every earlier entry passes both validations, resolution raises the
inverted-range error naming the earlier entry's title; and a successful
resolution never contains a zero- or negative-length range. -/
theorem c4_inverted :
    (∀ (toc : List Entry) (total off : Int) (i : Nat) (e e2 : Entry),
      (∀ j, j < i → passAt toc total off j) →
      toc.get? i = some e → toc.get? (i + 1) = some e2 →
      e2.start = e.start →
      0 ≤ e.start + off - 1 → e.start + off - 1 < total →
      resolveRanges toc total off = .error (.invertedRange e.title)) ∧
    (∀ (toc : List Entry) (total off : Int) (rs : List Range),
      resolveRanges toc total off = .ok rs → ∀ r ∈ rs, r.pdfStart ≤ r.pdfEnd) := by
  constructor
  · intro toc total off i e e2 hpass hget hget2 heq h0 h1
    refine resolveRanges_err_inv total off toc i e hpass hget h0 h1 ?_
    have hce : clampedEnd toc total off i = min (e2.start + off - 2) (total - 1) := by
      simp only [clampedEnd, hget2]
    rw [hce]
    omega
  · intro toc total off rs h r hr
    exact ((resolveRanges_ok_facts toc total off rs h).2.1 r hr).2.1

/-- C4 (witness): two entries sharing start page 5 (offset 0, total 10):
the computed start 4 is in range and the inverted-range error is raised
for the earlier entry "A". -/
theorem c4_inverted_witness :
    (([⟨str "A", 5⟩, ⟨str "B", 5⟩] : List Entry).get? 0 = some ⟨str "A", 5⟩) ∧
    resolveRanges [⟨str "A", 5⟩, ⟨str "B", 5⟩] 10 0 = .error (.invertedRange (str "A")) :=
  ⟨rfl, c4_inverted.1 [⟨str "A", 5⟩, ⟨str "B", 5⟩] 10 0 0 ⟨str "A", 5⟩ ⟨str "B", 5⟩
    (fun j hj => absurd hj (Nat.not_lt_zero j)) rfl rfl rfl (by decide) (by decide)⟩

/-- C5: when range resolution fails (out-of-range, inverted-range or empty
TOC), `split_pdf` propagates the error and performs no filesystem effect:
no directory creation, no chapter file, no manifest row. -/
theorem c5_no_write_on_error (toc : List Entry) (total off : Int) (err : SplitError)
    (h : resolveRanges toc total off = .error err) :
    split_pdf toc total off = (.error err, []) := by
  rw [split_pdf, h]

/-- C5 (witness): a failing run produces the error and an empty effect
trace. -/
theorem c5_no_write_on_error_witness :
    (resolveRanges [⟨str "A", 0⟩] 7 0 = .error (.outOfRange (str "A") 0)) ∧
    split_pdf [⟨str "A", 0⟩] 7 0 = (.error (.outOfRange (str "A") 0), []) :=
  ⟨by decide, c5_no_write_on_error [⟨str "A", 0⟩] 7 0 _ (by decide)⟩

/-- C8: on the TOC `[("Introduction", 1), ("Intelligent Agents", 34)]`
with `total_pages = 600` and offset 16, resolution yields the zero-based
ranges `(16, 48)` and `(49, 599)`, and the run writes the two chapter
files followed by the manifest whose header is
`pdf_start\tpdf_end\tbook_start\ttitle` and whose rows are
`17\t49\t1\tIntroduction` and `50\t600\t34\tIntelligent Agents`. -/
theorem c8_example_scenario :
    resolveRanges [⟨str "Introduction", 1⟩, ⟨str "Intelligent Agents", 34⟩] 600 16 =
      .ok [⟨str "Introduction", 16, 48⟩, ⟨str "Intelligent Agents", 49, 599⟩] ∧
    split_pdf [⟨str "Introduction", 1⟩, ⟨str "Intelligent Agents", 34⟩] 600 16 =
      (.ok (), [FsEvent.mkdirOut,
        FsEvent.writeChapter (str "Part_01_Introduction.pdf") 16 48,
        FsEvent.writeChapter (str "Part_02_Intelligent_Agents.pdf") 49 599,
        FsEvent.writeManifest (str
          "pdf_start\tpdf_end\tbook_start\ttitle\n17\t49\t1\tIntroduction\n50\t600\t34\tIntelligent Agents\n")]) := by
  decide

/-- C6 (counterexample): the title `" 1 Intro"` does not match the claim's
pattern (digits, then whitespace, then remainder — it begins with a
space), so the claim requires the `Part_01_...` form; but the code strips
the title before matching and returns the `Ch01_...` form. -/
theorem c6_counterexample :
    infer_filename 1 (str " 1 Intro") = str "Ch01_Intro.pdf" ∧
    specPatternB (str " 1 Intro") = false := by decide

/-- C6 (amended): the chapter-number form is chosen by matching the
*stripped* title against digits-whitespace-remainder with the remainder
free of newlines; the greedy decomposition fixes the capture groups, and
otherwise the position-numbered `Part` form is produced.  The two example
scenarios hold as stated. -/
theorem c6_filename_rule :
    (∀ (i : Nat) (t d w r : Str),
      pyStrip t = d ++ w ++ r →
      d ≠ [] → (∀ c ∈ d, isDigitCh c = true) →
      w ≠ [] → (∀ c ∈ w, isSpaceCh c = true) →
      r ≠ [] → r.takeWhile isSpaceCh = [] → newlineCh ∉ r →
      infer_filename i t = str "Ch" ++ pad2 (digitsToNat d) ++ str "_" ++
        sanitize_filename r ++ str ".pdf") ∧
    (∀ (i : Nat) (t : Str),
      (¬ ∃ d w r, pyStrip t = d ++ w ++ r ∧ d ≠ [] ∧ (∀ c ∈ d, isDigitCh c = true) ∧
        w ≠ [] ∧ (∀ c ∈ w, isSpaceCh c = true) ∧ r ≠ [] ∧ newlineCh ∉ r) →
      infer_filename i t = str "Part_" ++ pad2 i ++ str "_" ++
        sanitize_filename t ++ str ".pdf") ∧
    infer_filename 1 (str "1 Introduction") = str "Ch01_Introduction.pdf" ∧
    infer_filename 1 (str "Preface") = str "Part_01_Preface.pdf" := by
  refine ⟨?_, ?_, by decide, by decide⟩
  · intro i t d w r hs hd hdall hw hwall hr hrtw hnl
    have hc := chMatch_eq_some t d w r hs hd hdall hw hwall hr hrtw hnl
    simp only [infer_filename, hc]
  · intro i t hnex
    rcases hc : chMatch t with _ | ⟨d, r⟩
    · simp only [infer_filename, hc]
    · exfalso
      obtain ⟨w, h1, h2, h3, h4, h5, h6, h7⟩ := chMatch_decomp t d r hc
      exact hnex ⟨d, w, r, h1, h2, h3, h4, h5, h6, h7⟩

/-- C6 (witness): the decomposition of `"12  Foo"` gives the `Ch12_...`
form via the amended rule. -/
theorem c6_filename_rule_witness :
    (pyStrip (str "12  Foo") = str "12" ++ str "  " ++ str "Foo") ∧
    infer_filename 3 (str "12  Foo") = str "Ch" ++ pad2 (digitsToNat (str "12")) ++
      str "_" ++ sanitize_filename (str "Foo") ++ str ".pdf" :=
  ⟨by decide, c6_filename_rule.1 3 (str "12  Foo") (str "12") (str "  ") (str "Foo")
    (by decide) (by decide) (by decide) (by decide) (by decide) (by decide)
    (by decide) (by decide)⟩

/-- C7 (counterexample): on the input `" a"`, the code trims the
surrounding whitespace after deleting disallowed characters and returns
`"a"`, while the claim's pipeline (strip disallowed characters, collapse
whitespace runs to `_`, truncate) returns `"_a"`. -/
theorem c7_counterexample :
    sanitize_filename (str " a") = str "a" ∧
    sanitizeSpec (str " a") = str "_a" ∧
    sanitize_filename (str " a") ≠ sanitizeSpec (str " a") := by decide

/-- C7 (amended): `sanitize_filename` deletes every character that is not
alphanumeric/underscore/whitespace/hyphen/period, trims surrounding
whitespace, collapses each whitespace run to a single underscore and
truncates to 180 characters; the output never contains a path separator
(`/` or `\`), never contains whitespace, and has length at most 180.
Determinism is definitional (it is a pure function). -/
theorem c7_sanitize (name : Str) :
    sanitize_filename name = (collapseWs (pyStrip (name.filter keepCh))).take 180 ∧
    (∀ c ∈ sanitize_filename name, c ≠ '/' ∧ c ≠ '\\') ∧
    (sanitize_filename name).length ≤ 180 ∧
    (∀ c ∈ sanitize_filename name, isSpaceCh c = false) := by
  refine ⟨?_, ?_, ?_, ?_⟩
  · simp only [sanitize_filename]
    split
    · rfl
    · rename_i hle
      exact (List.take_of_length_le (by omega)).symm
  · intro c hc
    rcases mem_sanitize name c hc with h | ⟨_, hk, _⟩
    · subst h; exact ⟨by decide, by decide⟩
    · constructor
      · intro h; subst h; exact absurd hk (by decide)
      · intro h; subst h; exact absurd hk (by decide)
  · simp only [sanitize_filename]
    split
    · rw [List.length_take]; omega
    · rename_i hle; omega
  · intro c hc
    rcases mem_sanitize name c hc with h | ⟨_, _, hs⟩
    · subst h; decide
    · exact hs

/-- C7 (witness): the amended pipeline instantiated on a concrete input. -/
theorem c7_sanitize_witness :
    sanitize_filename (str " a  b/c ") =
      (collapseWs (pyStrip ((str " a  b/c ").filter keepCh))).take 180 :=
  (c7_sanitize (str " a  b/c ")).1

/-- C9: normalizing a nested mapping TOC equals normalizing the flat list
holding its depth-first leaves in discovery order — both are the stable
sort by start page of the same entry sequence; checked also on a concrete
nested example. -/
theorem c9_flatten_consistency :
    (∀ d : List (Str × JVal),
      load_toc_from_json (.dict d) = load_toc_from_json (.list (flattenDict d))) ∧
    load_toc_from_json (.dict [(str "Part I", .dict [(str "Introduction", .num 1),
      (str "Intelligent Agents", .num 34)]), (str "Appendix", .num 64)]) =
      [⟨str "Introduction", 1⟩, ⟨str "Intelligent Agents", 34⟩, ⟨str "Appendix", 64⟩] :=
  ⟨fun _ => rfl, by decide⟩

/-- C9 (witness): the flattening consistency instantiated on a concrete
nested mapping. -/
theorem c9_flatten_consistency_witness :
    load_toc_from_json (.dict [(str "P", .dict [(str "A", .num 3)]), (str "B", .num 1)]) =
      load_toc_from_json (.list (flattenDict
        [(str "P", .dict [(str "A", .num 3)]), (str "B", .num 1)])) :=
  c9_flatten_consistency.1 [(str "P", .dict [(str "A", .num 3)]), (str "B", .num 1)]

/-- C10: a non-skipped TSV line (nonempty after stripping, not a `#`
comment) with at least two tab-separated fields contributes exactly one
entry, whose start page is the integer parse of the first field and whose
title is the stripped second field; any further fields are ignored. -/
theorem c10_tsv_line (line f0 f1 : Str) (extra : List Str) (n : Int)
    (h1 : pyStrip line ≠ [])
    (h2 : (pyStrip line).head? ≠ some '#')
    (h3 : splitTab (pyStrip line) = f0 :: f1 :: extra)
    (h4 : pyInt f0 = some n) :
    tsvLine line = .ok [⟨pyStrip f1, n⟩] ∧
    (∀ rest es, tsvEntries rest = .ok es →
      tsvEntries (line :: rest) = .ok (⟨pyStrip f1, n⟩ :: es)) := by
  have hl : tsvLine line = .ok [⟨pyStrip f1, n⟩] := by
    simp only [tsvLine]
    rw [if_neg h1, if_neg h2]
    simp only [h3, h4]
  refine ⟨hl, ?_⟩
  intro rest es h
  rw [tsvEntries]
  simp only [hl, h, Except.map, List.singleton_append]

/-- C10 (witness): the line `"5\tHello\tX"` yields the single entry
`("Hello", 5)`, discarding the third field. -/
theorem c10_tsv_line_witness :
    (pyInt (str "5") = some 5) ∧
    tsvLine (str "5\tHello\tX") = .ok [⟨str "Hello", 5⟩] :=
  ⟨by decide, (c10_tsv_line (str "5\tHello\tX") (str "5") (str "Hello") [str "X"] 5
    (by decide) (by decide) (by decide) (by decide)).1⟩

end SplitPdf
